import Mathlib

/-!
# go-srvc/srvc: module orchestration (`service.go`) and error aggregation (`group.go`)

A shallow embedding of the orchestrator `Run` / `run` / `execute` / `catchPanic` /
`RunAndExit` and of `ErrGroup` (`Go`, `Wait`), together with the pieces of the Go
standard library they rely on (`errors.Join`, `errors.Is`, `fmt.Errorf` with one `%w`).

Modelling conventions

* A Go `error` is `Option Err`; `none` is `nil`.
* A call to a caller supplied `func() error` is described by its `Outcome`: it either
  returns an `error` or panics with a payload.
* `Module.Init` and `Module.Stop` are synchronous.  A call of `Module.Run` either ends on
  its own, or ends once `Stop` has been called on the module (`RunOutcome`), as the
  interface comment in `service.go` asks ("block until stop is called or error occurs";
  "Stop ... should make Run() return eventually").  A `Run` that does not end even after
  `Stop` is outside the model.
* A schedule (`List Nat`) decides when each goroutine started by `execute` gets to call
  `Run` (before, between or after the `Stop` calls) and in which order the goroutines of
  an `ErrGroup` finish; the mutex makes every merge step atomic, so the order of the
  merges is all that the interleaving decides for the error.
* Logging (`slog`) is dropped.
-/

namespace Srvc

/-! ## Errors -/

/-- Go error values that occur in the package: `ErrStr` strings (also standing for any
comparable leaf error of a module), `*fmt.wrapError` built by `fmt.Errorf` with one `%w`
verb, and `*errors.joinError` built by `errors.Join`. -/
inductive Err where
  | str (s : String)
  | wrap (msg : String) (err : Err)
  | join (errs : List Err)

mutual
/-- Decidable equality of error values (Go's `==`; join nodes are compared by content). -/
def Err.decEq : (a b : Err) → Decidable (a = b)
  | .str a, .str b =>
    if h : a = b then isTrue (by rw [h]) else isFalse (by intro h2; cases h2; exact h rfl)
  | .wrap m a, .wrap n b =>
    if h : m = n then
      match Err.decEq a b with
      | isTrue h2 => isTrue (by rw [h, h2])
      | isFalse h2 => isFalse (by intro h3; cases h3; exact h2 rfl)
    else isFalse (by intro h3; cases h3; exact h rfl)
  | .join as, .join bs =>
    match Err.decEqList as bs with
    | isTrue h => isTrue (by rw [h])
    | isFalse h => isFalse (by intro h3; cases h3; exact h rfl)
  | .str _, .wrap _ _ => isFalse (by intro h; cases h)
  | .str _, .join _ => isFalse (by intro h; cases h)
  | .wrap _ _, .str _ => isFalse (by intro h; cases h)
  | .wrap _ _, .join _ => isFalse (by intro h; cases h)
  | .join _, .str _ => isFalse (by intro h; cases h)
  | .join _, .wrap _ _ => isFalse (by intro h; cases h)
/-- Decidable equality of lists of error values. -/
def Err.decEqList : (as bs : List Err) → Decidable (as = bs)
  | [], [] => isTrue rfl
  | [], _ :: _ => isFalse (by intro h; cases h)
  | _ :: _, [] => isFalse (by intro h; cases h)
  | a :: as, b :: bs =>
    match Err.decEq a b with
    | isTrue h =>
      match Err.decEqList as bs with
      | isTrue h2 => isTrue (by rw [h, h2])
      | isFalse h2 => isFalse (by intro h3; cases h3; exact h2 rfl)
    | isFalse h => isFalse (by intro h3; cases h3; exact h rfl)
end

instance : DecidableEq Err := Err.decEq

mutual
/-- The `Error()` method: `ErrStr.Error` (group.go), `wrapError.Error`, `joinError.Error`
(messages of the members separated by a newline). -/
def Err.Error : Err → String
  | .str s => s
  | .wrap m _ => m
  | .join es => Err.ErrorList es
/-- Messages of a list of errors, separated by newlines. -/
def Err.ErrorList : List Err → String
  | [] => ""
  | [e] => e.Error
  | e :: e2 :: es => e.Error ++ "\n" ++ Err.ErrorList (e2 :: es)
end

mutual
/-- The loop of `errors.Is` for a non-nil target: compare, then unwrap (`Unwrap() error`
for a wrap node, `Unwrap() []error` for a join node). -/
def Err.is (target : Err) : Err → Bool
  | .str s => decide (Err.str s = target)
  | .wrap m e => decide (Err.wrap m e = target) || Err.is target e
  | .join es => decide (Err.join es = target) || Err.isAny target es
/-- The `for _, err := range x.Unwrap()` branch of `errors.Is`. -/
def Err.isAny (target : Err) : List Err → Bool
  | [] => false
  | e :: es => Err.is target e || Err.isAny target es
end

/-- Go's `errors.Is(err, target)`. -/
def errorsIs (err target : Option Err) : Bool :=
  match err, target with
  | some e, some t => Err.is t e
  | none, none => true
  | _, _ => false

/-- Go's `errors.Join`: nil arguments are discarded; nil when nothing is left. -/
def errorsJoin (errs : List (Option Err)) : Option Err :=
  match errs.reduceOption with
  | [] => none
  | e :: es => some (.join (e :: es))

/-- The package variable `JoinErrors`, at its default value `errors.Join` (group.go). -/
def JoinErrors (errs : List (Option Err)) : Option Err := errorsJoin errs

/-- The constant `ErrModulePanic = ErrStr("module recovered from panic")`. -/
def ErrModulePanic : Err := .str "module recovered from panic"

/-- A value passed to `panic`, as seen by `recover()`. -/
inductive Payload where
  | str (s : String)
  | err (e : Err)
  | other (shown : String)
  deriving DecidableEq

/-- What the `%s` verb of package `fmt` prints for a panic payload: a string as it is, an
error through its `Error()` method; for any other value the rendering is carried by the
payload itself. -/
def Payload.fmtS : Payload → String
  | .str s => s
  | .err e => e.Error
  | .other shown => shown

/-- The behaviour of one call of a `func() error`. -/
inductive Outcome where
  | returns (err : Option Err)
  | panics (p : Payload)
  deriving DecidableEq

/-- The function `catchPanic`: a recovered panic becomes
`fmt.Errorf("%w: %s", ErrModulePanic, rErr)`, otherwise the value of `fn()` is returned. -/
def catchPanic (fn : Outcome) : Option Err :=
  match fn with
  | .returns err => err
  | .panics rErr => some (.wrap (ErrModulePanic.Error ++ ": " ++ rErr.fmtS) ErrModulePanic)

/-! ## Modules -/

/-- The behaviour of one call of `Module.Run`, which "should start the module and block
until stop is called or error occurs": the call ends on its own with an outcome, or it
ends with an outcome once `Stop` has been called on the module. -/
inductive RunOutcome where
  | ends (o : Outcome)
  | endsAfterStop (o : Outcome)
  deriving DecidableEq

/-- How the call of `Run` ends, when it ends. -/
def RunOutcome.outcome : RunOutcome → Outcome
  | .ends o => o
  | .endsAfterStop o => o

/-- Whether the call of `Run` ends without `Stop` being called. -/
def RunOutcome.onItsOwn : RunOutcome → Bool
  | .ends _ => true
  | .endsAfterStop _ => false

/-- The interface `Module`. -/
structure Module where
  ID : String
  Init : Outcome
  Run : RunOutcome
  Stop : Outcome
  deriving DecidableEq

/-- The three methods of a module that the orchestrator calls. -/
inductive Phase where
  | Init
  | Run
  | Stop
  deriving DecidableEq

/-- One call made by the orchestrator; `result = none` when the call never returns. -/
structure Call where
  phase : Phase
  mod : Module
  result : Option Outcome
  deriving DecidableEq

/-! ## ErrGroup (group.go) -/

/-- The struct `ErrGroup`: `wg` lists the goroutines that have not finished yet, each with
the value its function returns (the WaitGroup counter is the length); `err` is the field
`err`. -/
structure ErrGroup where
  wg : List (Option Err) := []
  err : Option Err := none

/-- The method `ErrGroup.Go`: register one more goroutine. -/
def ErrGroup.Go (eg : ErrGroup) (f : Option Err) : ErrGroup :=
  { eg with wg := eg.wg ++ [f] }

/-- The body of the goroutine started by `Go`, for the `i`-th unfinished goroutine:
`if err := f(); err != nil then eg.err = JoinErrors(eg.err, err)`, then `wg.Done()`. -/
def ErrGroup.finish (eg : ErrGroup) (i : Nat) : ErrGroup :=
  match eg.wg.get? i with
  | none => eg
  | some none => { eg with wg := eg.wg.eraseIdx i }
  | some (some err) => { wg := eg.wg.eraseIdx i, err := JoinErrors [eg.err, some err] }

/-- Let `n` goroutines finish, the schedule choosing which one is next. -/
def ErrGroup.drain : Nat → List Nat → ErrGroup → ErrGroup
  | 0, _, eg => eg
  | n + 1, sched, eg => ErrGroup.drain n sched.tail (eg.finish (sched.headD 0 % eg.wg.length))

/-- The method `ErrGroup.Wait`: block until every goroutine has finished, then read `err`. -/
def ErrGroup.Wait (eg : ErrGroup) (sched : List Nat) : Option Err :=
  (ErrGroup.drain eg.wg.length sched eg).err

/-- The order in which `n` goroutines finish under a schedule. -/
def ErrGroup.order : Nat → List Nat → List (Option Err) → List (Option Err)
  | 0, _, _ => []
  | n + 1, sched, wg =>
    match wg.get? (sched.headD 0 % wg.length) with
    | none => []
    | some x => x :: ErrGroup.order n sched.tail (wg.eraseIdx (sched.headD 0 % wg.length))

/-- The effect on the field `err` of one goroutine finishing with the value `x`. -/
def ErrGroup.merge (err : Option Err) (x : Option Err) : Option Err :=
  match x with
  | none => err
  | some e => JoinErrors [err, some e]

/-! ## The orchestrator (service.go) -/

/-- The result of one invocation: the calls made on modules, in the order in which they
are entered (`Init` and `Stop` by the orchestrator, each `Run` by a goroutine of its own
when the schedule lets it), and the value returned; `returned = none` when the invocation
blocks forever. -/
structure Exec where
  calls : List Call
  returned : Option (Option Err)
  deriving DecidableEq

/-- The modules on which a given method was called, in call order. -/
def Exec.callsOf (x : Exec) (ph : Phase) : List Module :=
  (x.calls.filter (fun c => decide (c.phase = ph))).map Call.mod

/-- The function named initialize in service.go: `Init` is called on the modules in order until
one fails; returns the modules initialized so far, the wrapped error of the failing
`Init` (or nil), and the calls made. -/
def initModules : List Module → List Module × Option Err × List Call
  | [] => ([], none, [])
  | mod :: rest =>
    match catchPanic mod.Init with
    | some err =>
      ([], some (.wrap ("failed to initialize module " ++ mod.ID ++ ": " ++ err.Error) err),
        [⟨.Init, mod, some mod.Init⟩])
    | none =>
      let r := initModules rest
      (mod :: r.1, r.2.1, ⟨.Init, mod, some mod.Init⟩ :: r.2.2)

/-- The value returned by the function literal that `execute` hands to `wg.Go` for one
module, once `mod.Run` has ended. -/
def runTask (mod : Module) : Option Err :=
  match catchPanic mod.Run.outcome with
  | some err => some (.wrap ("failed to run module " ++ mod.ID ++ ": " ++ err.Error) err)
  | none => none

/-- The call `catchPanic(mod.Run)` made by the goroutine of one module; `stopped` tells
whether `Stop` gets called on the module.  The call returns if it ends on its own or the
module is stopped. -/
def runCall (stopped : Bool) (mod : Module) : Call :=
  ⟨.Run, mod, if mod.Run.onItsOwn || stopped then some mod.Run.outcome else none⟩

/-- What the orchestrator goroutine is doing while the goroutines of the modules are
scheduled: blocked on `<-ctx.Done()` in `execute`, able to run (the stop loop), or
blocked in `wg.Wait()`. -/
inductive Orchestrator where
  | awaitsDone
  | runnable
  | awaitsAll
  deriving DecidableEq

/-- The outcome of a stretch of scheduling: the goroutines that called `Run`, in order,
those that have not been scheduled yet, the state of the orchestrator, and the rest of
the schedule. -/
structure Scheduled where
  entered : List Module
  pending : List Module
  orch : Orchestrator
  sched : List Nat

/-- The number of choices the scheduler has besides the goroutines of the modules: one
when the orchestrator can run. -/
def Orchestrator.choices : Orchestrator → Nat
  | .runnable => 1
  | _ => 0

/-- The state of the orchestrator once a goroutine has called `Run` of `m`: a `Run` that
ends on its own cancels the context (the deferred `cancel()`), which wakes an orchestrator
blocked on `ctx.Done()`. -/
def Orchestrator.afterRun (orch : Orchestrator) (m : Module) : Orchestrator :=
  match orch with
  | .awaitsDone => if m.Run.onItsOwn then .runnable else .awaitsDone
  | .runnable => .runnable
  | .awaitsAll => .awaitsAll

/-- Let the scheduler run: at each step it picks one of the goroutines that have not
called `Run` yet, which then calls it, or, if the orchestrator is runnable, it may pick
the orchestrator, which ends the stretch. -/
def enterRun : Nat → Orchestrator → List Nat → List Module → Scheduled
  | 0, orch, sched, pending => ⟨[], pending, orch, sched⟩
  | n + 1, orch, sched, pending =>
    match pending.get? (sched.headD 0 % (pending.length + orch.choices)) with
    | none => ⟨[], pending, orch, sched.tail⟩
    | some m =>
      let r := enterRun n (orch.afterRun m) sched.tail
        (pending.eraseIdx (sched.headD 0 % (pending.length + orch.choices)))
      ⟨m :: r.entered, r.pending, r.orch, r.sched⟩

/-- The state in which `execute` leaves things: the group, the `Run` calls entered so
far, the goroutines not scheduled yet, whether `ctx.Done()` fired (only then does
`execute` return), and the rest of the schedule. -/
structure Running where
  wg : ErrGroup
  calls : List Call
  pending : List Module
  done : Bool
  sched : List Nat

/-- The function `execute`: start one goroutine per module through `wg.Go`, then block on
`ctx.Done()`.  While it is blocked the goroutines get scheduled and call `Run`; the
context is cancelled by the first `Run` that returns. -/
def execute (sched : List Nat) (wg : ErrGroup) (modules : List Module) : Running :=
  let started := modules.foldl
    (fun (acc : ErrGroup × List Module) mod => (acc.1.Go (runTask mod), acc.2 ++ [mod])) (wg, [])
  let r := enterRun started.2.length .awaitsDone sched started.2
  let done := decide (r.orch = .runnable)
  { wg := started.1, calls := r.entered.map (runCall done), pending := r.pending,
    done := done, sched := r.sched }

/-- The state after the stop loop: `stopErr`, the calls entered during the loop, the
goroutines not scheduled yet, and the rest of the schedule. -/
structure Stopping where
  stopErr : Option Err
  calls : List Call
  pending : List Module
  sched : List Nat

/-- The stop loop of `run` (`for i := len(initialized) - 1; i >= 0; i--`), given the
modules in the order of the loop: `stopErr = JoinErrors(stopErr, catchPanic(mod.Stop))`.
Before each `Stop` call the scheduler may let goroutines call `Run`. -/
def stopModules : List Nat → List Module → Option Err → List Module → Stopping
  | sched, pending, stopErr, [] => ⟨stopErr, [], pending, sched⟩
  | sched, pending, stopErr, mod :: rest =>
    let e := enterRun pending.length .runnable sched pending
    let r := stopModules e.sched e.pending (JoinErrors [stopErr, catchPanic mod.Stop]) rest
    ⟨r.stopErr, e.entered.map (runCall true) ++ ⟨.Stop, mod, some mod.Stop⟩ :: r.calls,
      r.pending, r.sched⟩

/-- The function `run`.  While it is blocked in `wg.Wait()`, the goroutines that have not
been scheduled yet call `Run`; then all goroutines finish. -/
def run (sched : List Nat) (modules : List Module) : Exec :=
  if modules.length = 0 then
    { calls := [], returned := some none }
  else
    let wg : ErrGroup := {}
    let ini := initModules modules
    let initialized := ini.1
    let initErr := ini.2.1
    let ex : Running :=
      if initErr.isNone then execute sched wg initialized
      else { wg := wg, calls := [], pending := [], done := true, sched := sched }
    if ex.done then
      let st := stopModules ex.sched ex.pending none initialized.reverse
      let w := enterRun st.pending.length .awaitsAll st.sched st.pending
      { calls := ini.2.2 ++ ex.calls ++ st.calls ++ w.entered.map (runCall true),
        returned := some (JoinErrors [initErr, ex.wg.Wait w.sched, st.stopErr]) }
    else
      { calls := ini.2.2 ++ ex.calls, returned := none }

/-- The function `Run`: `run` plus logging. -/
def Run (sched : List Nat) (modules : List Module) : Exec :=
  run sched modules

/-- The function `RunAndExit`: `exitFn(1)` when `Run` returns a non-nil error.  `exitFn`
(the patchable package variable) acts on a state `σ`. -/
def RunAndExit {σ : Type} (exitFn : Int → σ → σ) (sched : List Nat) (modules : List Module)
    (s : σ) : σ :=
  match (Run sched modules).returned with
  | some (some _) => exitFn 1 s
  | _ => s

/-! ## Sample modules -/

/-- A module that works and whose `Run` blocks until `Stop` is called. -/
def blockingMod : Module :=
  { ID := "worker", Init := .returns none, Run := .endsAfterStop (.returns none),
    Stop := .returns none }

/-- A module that works and whose `Run` returns nil on its own. -/
def quickMod : Module :=
  { ID := "quick", Init := .returns none, Run := .ends (.returns none),
    Stop := .returns none }

/-- A module whose `Init` returns an error. -/
def initErrMod : Module :=
  { ID := "db", Init := .returns (some (.str "init error")), Run := .ends (.returns none),
    Stop := .returns none }

/-- A module whose `Stop` returns an error. -/
def stopErrMod : Module :=
  { ID := "db", Init := .returns none, Run := .ends (.returns none),
    Stop := .returns (some (.str "stop error")) }

/-- A module whose `Init` and `Stop` both return an error (`InitStopErrMod` of the tests). -/
def initStopErrMod : Module :=
  { ID := "TestMod", Init := .returns (some (.str "init error")),
    Run := .ends (.returns none), Stop := .returns (some (.str "stop error")) }

/-- A module whose `Run` panics. -/
def runPanicMod : Module :=
  { ID := "api", Init := .returns none, Run := .ends (.panics (.str "boom")),
    Stop := .returns none }

/-! ## Lemmas on errors -/

theorem Err.isAny_iff (t : Err) (es : List Err) :
    Err.isAny t es = true ↔ ∃ e ∈ es, Err.is t e = true := by
  induction es with
  | nil => simp [Err.isAny]
  | cons e es ih => simp [Err.isAny, ih]

theorem Err.is_refl (e : Err) : Err.is e e = true := by
  cases e <;> simp [Err.is]

theorem Err.is_wrap (t : Err) (m : String) (e : Err) :
    Err.is t (.wrap m e) = true ↔ (Err.wrap m e = t ∨ Err.is t e = true) := by
  simp [Err.is]

theorem Err.is_join (t : Err) (es : List Err) :
    Err.is t (.join es) = true ↔ (Err.join es = t ∨ ∃ e ∈ es, Err.is t e = true) := by
  simp [Err.is, Err.isAny_iff]

mutual
theorem Err.is_trans (t e : Err) (h : Err.is t e = true) :
    ∀ r : Err, Err.is e r = true → Err.is t r = true
  | .str s, h2 => by
    simp [Err.is] at h2
    rw [h2]; exact h
  | .wrap m x, h2 => by
    rw [Err.is_wrap] at h2
    rcases h2 with h2 | h2
    · rw [h2]; exact h
    · rw [Err.is_wrap]; exact Or.inr (Err.is_trans t e h x h2)
  | .join es, h2 => by
    simp only [Err.is, Bool.or_eq_true, decide_eq_true_eq] at h2
    rcases h2 with h2 | h2
    · rw [h2]; exact h
    · simp only [Err.is, Bool.or_eq_true, decide_eq_true_eq]
      exact Or.inr (Err.isAny_trans t e h es h2)
theorem Err.isAny_trans (t e : Err) (h : Err.is t e = true) :
    ∀ rs : List Err, Err.isAny e rs = true → Err.isAny t rs = true
  | [], h2 => by simp [Err.isAny] at h2
  | r :: rs, h2 => by
    simp only [Err.isAny, Bool.or_eq_true] at h2 ⊢
    rcases h2 with h2 | h2
    · exact Or.inl (Err.is_trans t e h r h2)
    · exact Or.inr (Err.isAny_trans t e h rs h2)
end

theorem errorsIs_some (x t : Err) : errorsIs (some x) (some t) = Err.is t x := rfl

theorem errorsIs_none (t : Err) : errorsIs none (some t) = false := rfl

theorem errorsIs_elim {r : Option Err} {t : Err} (h : errorsIs r (some t) = true) :
    ∃ x, r = some x ∧ Err.is t x = true := by
  cases r with
  | none => simp [errorsIs] at h
  | some x => exact ⟨x, rfl, h⟩

theorem errorsJoin_eq (l : List (Option Err)) :
    errorsJoin l = if l.reduceOption = [] then none else some (.join l.reduceOption) := by
  unfold errorsJoin
  cases l.reduceOption <;> simp

theorem errorsJoin_eq_none (l : List (Option Err)) (h : ∀ x ∈ l, x = none) :
    errorsJoin l = none := by
  rw [errorsJoin_eq, if_pos]
  apply List.eq_nil_iff_forall_not_mem.mpr
  intro a ha
  rw [List.reduceOption_mem_iff] at ha
  have := h _ ha
  simp at this

theorem errorsIs_join_of_mem {l : List (Option Err)} {x : Option Err} {t : Err}
    (hx : x ∈ l) (h : errorsIs x (some t) = true) :
    errorsIs (errorsJoin l) (some t) = true := by
  obtain ⟨e, rfl, he⟩ := errorsIs_elim h
  have hmem : e ∈ l.reduceOption := List.reduceOption_mem_iff.mpr hx
  rw [errorsJoin_eq, if_neg (List.ne_nil_of_mem hmem), errorsIs_some, Err.is_join]
  exact Or.inr ⟨e, hmem, he⟩

theorem errorsIs_join_inv {l : List (Option Err)} {t : Err}
    (h : errorsIs (errorsJoin l) (some t) = true) (ht : ∀ es, t ≠ .join es) :
    ∃ x ∈ l, errorsIs x (some t) = true := by
  rw [errorsJoin_eq] at h
  split at h
  · simp [errorsIs] at h
  · rw [errorsIs_some, Err.is_join] at h
    rcases h with h | ⟨e, he, h⟩
    · exact absurd h.symm (ht _)
    · exact ⟨some e, List.reduceOption_mem_iff.mp he, h⟩

theorem catchPanic_eq_none (o : Outcome) : catchPanic o = none ↔ o = .returns none := by
  cases o with
  | returns err => cases err <;> simp [catchPanic]
  | panics p => simp [catchPanic]

/-! ## Lemmas on ErrGroup -/

theorem mem_split_eraseIdx {α : Type} {x : α} :
    ∀ (l : List α) (i : Nat), l.get? i = some x → ∀ y ∈ l, y = x ∨ y ∈ l.eraseIdx i
  | [], _, h, _, _ => by simp at h
  | a :: l, 0, h, y, hy => by
    simp at h
    subst h
    simpa using hy
  | a :: l, i + 1, h, y, hy => by
    simp at h
    rcases List.mem_cons.mp hy with rfl | hy
    · right; simp
    · rcases mem_split_eraseIdx l i (by simpa using h) y hy with h2 | h2
      · exact Or.inl h2
      · right; simp [h2]

theorem ErrGroup.finish_eq (eg : ErrGroup) (i : Nat) (hi : i < eg.wg.length) :
    ∃ x, eg.wg.get? i = some x ∧
      eg.finish i = { wg := eg.wg.eraseIdx i, err := ErrGroup.merge eg.err x } := by
  refine ⟨eg.wg.get ⟨i, hi⟩, List.get?_eq_get hi, ?_⟩
  unfold ErrGroup.finish
  rw [List.get?_eq_get hi]
  cases eg.wg.get ⟨i, hi⟩ <;> simp [ErrGroup.merge]

theorem ErrGroup.merge_keeps {err x : Option Err} {t : Err}
    (h : errorsIs err (some t) = true) : errorsIs (ErrGroup.merge err x) (some t) = true := by
  cases x with
  | none => exact h
  | some e => exact errorsIs_join_of_mem (List.mem_cons_self _ _) h

theorem ErrGroup.merge_adds {err : Option Err} {e t : Err}
    (h : Err.is t e = true) : errorsIs (ErrGroup.merge err (some e)) (some t) = true :=
  errorsIs_join_of_mem (x := some e) (by simp) h

theorem ErrGroup.merge_inv {err x : Option Err} {t : Err} (ht : ∀ es, t ≠ .join es)
    (h : errorsIs (ErrGroup.merge err x) (some t) = true) :
    errorsIs err (some t) = true ∨ ∃ e, x = some e ∧ Err.is t e = true := by
  cases x with
  | none => exact Or.inl h
  | some e =>
    obtain ⟨y, hy, h2⟩ := errorsIs_join_inv h ht
    simp only [List.mem_cons, List.mem_singleton, List.not_mem_nil, or_false] at hy
    rcases hy with rfl | rfl
    · exact Or.inl h2
    · exact Or.inr ⟨e, rfl, h2⟩

theorem ErrGroup.drain_wg (n : Nat) : ∀ (sched : List Nat) (eg : ErrGroup),
    eg.wg.length = n → (ErrGroup.drain n sched eg).wg = [] := by
  induction n with
  | zero =>
    intro sched eg h
    simpa [ErrGroup.drain] using h
  | succ n ih =>
    intro sched eg h
    have hi : sched.headD 0 % eg.wg.length < eg.wg.length := Nat.mod_lt _ (by omega)
    obtain ⟨x, -, hf⟩ := ErrGroup.finish_eq eg _ hi
    rw [ErrGroup.drain, hf]
    apply ih
    show (eg.wg.eraseIdx _).length = n
    rw [List.length_eraseIdx_of_lt hi, h]; rfl

theorem ErrGroup.drain_contains (n : Nat) : ∀ (sched : List Nat) (eg : ErrGroup) (t : Err),
    eg.wg.length = n →
    (errorsIs eg.err (some t) = true ∨ ∃ e, some e ∈ eg.wg ∧ Err.is t e = true) →
    errorsIs (ErrGroup.drain n sched eg).err (some t) = true := by
  induction n with
  | zero =>
    intro sched eg t h hc
    have hnil : eg.wg = [] := by simpa using h
    rcases hc with hc | ⟨e, he, -⟩
    · exact hc
    · simp [hnil] at he
  | succ n ih =>
    intro sched eg t h hc
    have hi : sched.headD 0 % eg.wg.length < eg.wg.length := Nat.mod_lt _ (by omega)
    obtain ⟨x, hx, hf⟩ := ErrGroup.finish_eq eg _ hi
    rw [ErrGroup.drain, hf]
    apply ih
    · show (eg.wg.eraseIdx _).length = n
      rw [List.length_eraseIdx_of_lt hi, h]; rfl
    · rcases hc with hc | ⟨e, he, het⟩
      · exact Or.inl (ErrGroup.merge_keeps hc)
      · rcases mem_split_eraseIdx _ _ hx _ he with h2 | h2
        · left
          rw [← h2]
          exact ErrGroup.merge_adds het
        · exact Or.inr ⟨e, h2, het⟩

theorem ErrGroup.drain_inv (n : Nat) : ∀ (sched : List Nat) (eg : ErrGroup) (t : Err),
    (∀ es, t ≠ .join es) →
    errorsIs (ErrGroup.drain n sched eg).err (some t) = true →
    (errorsIs eg.err (some t) = true ∨ ∃ e, some e ∈ eg.wg ∧ Err.is t e = true) := by
  induction n with
  | zero =>
    intro sched eg t _ h
    exact Or.inl h
  | succ n ih =>
    intro sched eg t ht h
    rw [ErrGroup.drain] at h
    rcases ih _ _ t ht h with h2 | ⟨e, he, het⟩
    · unfold ErrGroup.finish at h2
      split at h2
      · exact Or.inl h2
      · exact Or.inl h2
      · next err hget =>
        rcases ErrGroup.merge_inv (x := some err) ht h2 with h3 | ⟨e, he, het⟩
        · exact Or.inl h3
        · right
          refine ⟨e, ?_, het⟩
          rw [← he]
          exact List.get?_mem hget
    · right
      refine ⟨e, ?_, het⟩
      unfold ErrGroup.finish at he
      split at he
      · exact he
      · exact List.mem_of_mem_eraseIdx he
      · exact List.mem_of_mem_eraseIdx he

theorem ErrGroup.drain_none (n : Nat) : ∀ (sched : List Nat) (eg : ErrGroup),
    eg.err = none → (∀ x ∈ eg.wg, x = none) → (ErrGroup.drain n sched eg).err = none := by
  induction n with
  | zero =>
    intro sched eg h _
    exact h
  | succ n ih =>
    intro sched eg h hall
    rw [ErrGroup.drain]
    unfold ErrGroup.finish
    split
    · exact ih _ _ h hall
    · exact ih _ _ h (fun x hx => hall x (List.mem_of_mem_eraseIdx hx))
    · next err hget =>
      have := hall _ (List.get?_mem hget)
      simp at this

theorem foldl_Go {α : Type} (f : α → Option Err) (ms : List α) : ∀ (wg : ErrGroup),
    ms.foldl (fun g m => g.Go (f m)) wg = { wg := wg.wg ++ ms.map f, err := wg.err } := by
  induction ms with
  | nil => intro wg; simp
  | cons m ms ih =>
    intro wg
    rw [List.foldl_cons, ih]
    simp [ErrGroup.Go]

theorem perm_cons_eraseIdx {α : Type} {x : α} : ∀ (l : List α) (i : Nat),
    l.get? i = some x → l.Perm (x :: l.eraseIdx i)
  | [], _, h => by simp at h
  | a :: l, 0, h => by
    simp at h
    subst h
    simp
  | a :: l, i + 1, h => by
    have ih := perm_cons_eraseIdx l i (by simpa using h)
    rw [List.eraseIdx_cons_succ]
    exact (List.Perm.cons a ih).trans (List.Perm.swap x a _)

theorem ErrGroup.drain_eq_order (n : Nat) : ∀ (sched : List Nat) (eg : ErrGroup),
    eg.wg.length = n →
    (ErrGroup.drain n sched eg).err = (ErrGroup.order n sched eg.wg).foldl ErrGroup.merge eg.err := by
  induction n with
  | zero => intro sched eg _; rfl
  | succ n ih =>
    intro sched eg h
    have hi : sched.headD 0 % eg.wg.length < eg.wg.length := Nat.mod_lt _ (by omega)
    obtain ⟨x, hx, hf⟩ := ErrGroup.finish_eq eg _ hi
    rw [ErrGroup.drain, ErrGroup.order, hx, hf, ih]
    · rfl
    · show (eg.wg.eraseIdx _).length = n
      rw [List.length_eraseIdx_of_lt hi, h]; rfl

/-- Under any schedule all the goroutines finish, each exactly once. -/
theorem ErrGroup.order_perm (n : Nat) : ∀ (sched : List Nat) (wg : List (Option Err)),
    wg.length = n → (ErrGroup.order n sched wg).Perm wg := by
  induction n with
  | zero =>
    intro sched wg h
    have : wg = [] := List.length_eq_zero.mp h
    subst this
    exact List.Perm.refl _
  | succ n ih =>
    intro sched wg h
    have hi : sched.headD 0 % wg.length < wg.length := Nat.mod_lt _ (by omega)
    have hget : wg.get? (sched.headD 0 % wg.length) = some (wg.get ⟨_, hi⟩) :=
      List.get?_eq_get hi
    rw [ErrGroup.order, hget]
    have hlen : (wg.eraseIdx (sched.headD 0 % wg.length)).length = n := by
      rw [List.length_eraseIdx_of_lt hi, h]; rfl
    exact (List.Perm.cons _ (ih sched.tail _ hlen)).trans
      (perm_cons_eraseIdx wg _ hget).symm

/-- Every order of completion is produced by some schedule. -/
theorem ErrGroup.order_surj : ∀ (p wg : List (Option Err)), p.Perm wg →
    ∃ sched, ErrGroup.order wg.length sched wg = p
  | [], wg, h => by
    have : wg = [] := List.Perm.eq_nil h.symm
    subst this
    exact ⟨[], rfl⟩
  | x :: p, wg, h => by
    have hx : x ∈ wg := h.subset (List.mem_cons_self _ _)
    obtain ⟨i, hi, hget⟩ := List.getElem_of_mem hx
    have hget2 : wg.get? i = some x := by
      rw [List.get?_eq_getElem?, List.getElem?_eq_getElem hi, hget]
    have hperm : p.Perm (wg.eraseIdx i) :=
      List.Perm.cons_inv (h.trans (perm_cons_eraseIdx wg i hget2))
    obtain ⟨sched, hs⟩ := ErrGroup.order_surj p (wg.eraseIdx i) hperm
    refine ⟨i :: sched, ?_⟩
    have hlen : wg.length = (wg.eraseIdx i).length + 1 := by
      rw [List.length_eraseIdx_of_lt hi]; omega
    rw [hlen, ErrGroup.order]
    simp only [List.headD_cons, List.tail_cons]
    rw [Nat.mod_eq_of_lt hi, hget2, hs]

/-! ## Lemmas on the phases of `run` -/

theorem phase_filter_same (ph : Phase) (r : Module → Option Outcome) (l : List Module) :
    ((l.map (fun m => (⟨ph, m, r m⟩ : Call))).filter
      (fun c => decide (c.phase = ph))).map Call.mod = l := by
  induction l with
  | nil => rfl
  | cons a l ih => simpa using ih

theorem phase_filter_keep (ph : Phase) (r : Module → Option Outcome) (l : List Module) :
    (l.map (fun m => (⟨ph, m, r m⟩ : Call))).filter (fun c => decide (c.phase = ph))
      = l.map (fun m => (⟨ph, m, r m⟩ : Call)) := by
  induction l with
  | nil => rfl
  | cons a l ih => simp

theorem phase_filter_diff (ph ph2 : Phase) (hne : ph2 ≠ ph) (r : Module → Option Outcome)
    (l : List Module) :
    (l.map (fun m => (⟨ph2, m, r m⟩ : Call))).filter (fun c => decide (c.phase = ph)) = [] := by
  induction l with
  | nil => rfl
  | cons a l ih => simp [hne]

theorem map_mod (ph : Phase) (r : Module → Option Outcome) (l : List Module) :
    (l.map (fun m => (⟨ph, m, r m⟩ : Call))).map Call.mod = l := by
  rw [List.map_map]
  exact List.map_id _

theorem runCall_eq (b : Bool) :
    runCall b = fun m => (⟨.Run, m,
      if m.Run.onItsOwn || b then some m.Run.outcome else none⟩ : Call) := rfl

theorem enterRun_perm (n : Nat) : ∀ (orch : Orchestrator) (sched : List Nat)
    (pending : List Module),
    ((enterRun n orch sched pending).entered ++ (enterRun n orch sched pending).pending).Perm
      pending := by
  induction n with
  | zero => intro orch sched pending; exact List.Perm.refl _
  | succ n ih =>
    intro orch sched pending
    rw [enterRun]
    split
    · exact List.Perm.refl _
    · next m hget =>
      exact (List.Perm.cons m (ih _ _ _)).trans (perm_cons_eraseIdx pending _ hget).symm

theorem afterRun_keep (orch : Orchestrator) (m : Module) (h : orch ≠ .awaitsDone) :
    orch.afterRun m = orch := by
  cases orch <;> simp [Orchestrator.afterRun] at h ⊢

theorem enterRun_orch (n : Nat) : ∀ (orch : Orchestrator) (sched : List Nat)
    (pending : List Module), orch ≠ .awaitsDone →
    (enterRun n orch sched pending).orch = orch := by
  induction n with
  | zero => intro orch sched pending _; rfl
  | succ n ih =>
    intro orch sched pending h
    rw [enterRun]
    split
    · rfl
    · next m _ =>
      show (enterRun n (orch.afterRun m) _ _).orch = orch
      rw [afterRun_keep orch m h]
      exact ih _ _ _ h

theorem pick_lt {pending : List Module} {k : Nat} {m : Module}
    (hget : pending.get? k = some m) : k < pending.length := by
  by_contra hc
  rw [List.get?_eq_none.mpr (Nat.le_of_not_lt hc)] at hget
  simp at hget

theorem pick_none {pending : List Module} {x : Nat}
    (hget : pending.get? (x % (pending.length + 0)) = none) : pending = [] := by
  by_contra hp
  have hlt := Nat.mod_lt x (List.length_pos.mpr hp)
  rw [Nat.add_zero, List.get?_eq_get hlt] at hget
  simp at hget

theorem enterRun_all (n : Nat) : ∀ (sched : List Nat) (pending : List Module),
    pending.length ≤ n → (enterRun n .awaitsAll sched pending).pending = [] := by
  induction n with
  | zero =>
    intro sched pending h
    exact List.length_eq_zero.mp (Nat.le_zero.mp h)
  | succ n ih =>
    intro sched pending h
    rw [enterRun]
    split
    · next hget => exact pick_none hget
    · next m hget =>
      show (enterRun n .awaitsAll _ _).pending = []
      apply ih
      rw [List.length_eraseIdx_of_lt (pick_lt hget)]
      omega

theorem enterRun_done (n : Nat) : ∀ (sched : List Nat) (pending : List Module),
    pending.length ≤ n →
    ((enterRun n .awaitsDone sched pending).orch = .runnable ∧
        ∃ m ∈ pending, m.Run.onItsOwn = true) ∨
    ((enterRun n .awaitsDone sched pending).orch = .awaitsDone ∧
        (enterRun n .awaitsDone sched pending).pending = [] ∧
        ∀ m ∈ pending, m.Run.onItsOwn = false) := by
  induction n with
  | zero =>
    intro sched pending h
    have hp : pending = [] := List.length_eq_zero.mp (Nat.le_zero.mp h)
    subst hp
    exact Or.inr ⟨rfl, rfl, by simp⟩
  | succ n ih =>
    intro sched pending h
    rw [enterRun]
    split
    · next hget =>
      have hp : pending = [] := pick_none hget
      subst hp
      exact Or.inr ⟨rfl, rfl, by simp⟩
    · next m hget =>
      have hlen : (pending.eraseIdx (sched.headD 0 %
          (pending.length + Orchestrator.awaitsDone.choices))).length ≤ n := by
        rw [List.length_eraseIdx_of_lt (pick_lt hget)]
        omega
      have hm : m ∈ pending := List.get?_mem hget
      cases hown : m.Run.onItsOwn with
      | true =>
        left
        have ha : Orchestrator.awaitsDone.afterRun m = .runnable := by
          simp [Orchestrator.afterRun, hown]
        show (enterRun n (Orchestrator.awaitsDone.afterRun m) _ _).orch = .runnable ∧ _
        rw [ha]
        exact ⟨enterRun_orch n _ _ _ (by decide), m, hm, hown⟩
      | false =>
        have ha : Orchestrator.awaitsDone.afterRun m = .awaitsDone := by
          simp [Orchestrator.afterRun, hown]
        show ((enterRun n (Orchestrator.awaitsDone.afterRun m) _ _).orch = .runnable ∧ _) ∨
          ((enterRun n (Orchestrator.awaitsDone.afterRun m) _ _).orch = .awaitsDone ∧
            (enterRun n (Orchestrator.awaitsDone.afterRun m) _ _).pending = [] ∧ _)
        rw [ha]
        rcases ih sched.tail _ hlen with ⟨h1, x, hx, hxo⟩ | ⟨h1, h2, h3⟩
        · exact Or.inl ⟨h1, x, List.mem_of_mem_eraseIdx hx, hxo⟩
        · right
          refine ⟨h1, h2, ?_⟩
          intro x hx
          rcases mem_split_eraseIdx pending _ hget x hx with rfl | hx2
          · exact hown
          · exact h3 x hx2

theorem foldl_started (ms : List Module) : ∀ (wg : ErrGroup) (l : List Module),
    ms.foldl (fun (acc : ErrGroup × List Module) mod =>
        (acc.1.Go (runTask mod), acc.2 ++ [mod])) (wg, l)
      = ({ wg := wg.wg ++ ms.map runTask, err := wg.err }, l ++ ms) := by
  induction ms with
  | nil => intro wg l; simp
  | cons m ms ih =>
    intro wg l
    rw [List.foldl_cons, ih]
    simp [ErrGroup.Go]

theorem stop_spec : ∀ (stops : List Module) (sched : List Nat) (pending : List Module)
    (acc : Option Err),
    (stopModules sched pending acc stops).calls.filter (fun c => decide (c.phase = .Stop))
      = stops.map (fun m => ⟨.Stop, m, some m.Stop⟩) ∧
    (stopModules sched pending acc stops).calls.filter (fun c => decide (c.phase = .Init))
      = [] ∧
    (∃ runs, (stopModules sched pending acc stops).calls.filter
        (fun c => decide (c.phase = .Run)) = runs.map (runCall true) ∧
      (runs ++ (stopModules sched pending acc stops).pending).Perm pending) ∧
    (∀ t, (errorsIs acc (some t) = true ∨
          ∃ m ∈ stops, errorsIs (catchPanic m.Stop) (some t) = true) →
      errorsIs (stopModules sched pending acc stops).stopErr (some t) = true) ∧
    (acc = none → (∀ m ∈ stops, m.Stop = .returns none) →
      (stopModules sched pending acc stops).stopErr = none) := by
  intro stops
  induction stops with
  | nil =>
    intro sched pending acc
    refine ⟨rfl, rfl, ⟨[], rfl, List.Perm.refl _⟩, ?_, fun h _ => h⟩
    intro t h
    rcases h with h | ⟨m, hm, -⟩
    · exact h
    · simp at hm
  | cons a stops ih =>
    intro sched pending acc
    obtain ⟨h1, h2, ⟨runs, h3, h3p⟩, h4, h5⟩ :=
      ih (enterRun pending.length .runnable sched pending).sched
        (enterRun pending.length .runnable sched pending).pending
        (JoinErrors [acc, catchPanic a.Stop])
    rw [stopModules]
    refine ⟨?_, ?_, ?_, ?_, ?_⟩
    · simp only [List.filter_append, runCall_eq,
        phase_filter_diff Phase.Stop Phase.Run (by decide), List.nil_append]
      rw [List.filter_cons_of_pos (by simp), h1]
      rfl
    · simp only [List.filter_append, runCall_eq,
        phase_filter_diff Phase.Init Phase.Run (by decide), List.nil_append]
      rw [List.filter_cons_of_neg (by simp), h2]
    · refine ⟨(enterRun pending.length .runnable sched pending).entered ++ runs, ?_, ?_⟩
      · simp only [List.filter_append, List.map_append]
        rw [List.filter_cons_of_neg (by simp), h3]
        congr 1
        rw [runCall_eq]
        exact phase_filter_keep Phase.Run _ _
      · rw [List.append_assoc]
        exact (List.Perm.append_left _ h3p).trans (enterRun_perm _ _ _ _)
    · intro t h
      apply h4
      rcases h with h | ⟨m, hm, hmt⟩
      · exact Or.inl (errorsIs_join_of_mem (List.mem_cons_self _ _) h)
      · rcases List.mem_cons.mp hm with rfl | hm
        · exact Or.inl (errorsIs_join_of_mem (x := catchPanic m.Stop) (by simp) hmt)
        · exact Or.inr ⟨m, hm, hmt⟩
    · intro hacc hall
      apply h5
      · have ha : catchPanic a.Stop = none :=
          (catchPanic_eq_none _).mpr (hall a (List.mem_cons_self _ _))
        show errorsJoin [acc, catchPanic a.Stop] = none
        apply errorsJoin_eq_none
        intro x hx
        simp only [List.mem_cons, List.mem_singleton, List.not_mem_nil, or_false] at hx
        rcases hx with rfl | rfl
        · exact hacc
        · exact ha
      · exact fun m hm => hall m (List.mem_cons_of_mem _ hm)

/-- With no goroutine left to schedule the stop loop only makes its `Stop` calls. -/
theorem stop_nil : ∀ (stops : List Module) (sched : List Nat) (acc : Option Err),
    (stopModules sched [] acc stops).calls = stops.map (fun m => ⟨.Stop, m, some m.Stop⟩) ∧
    (stopModules sched [] acc stops).pending = [] ∧
    (stopModules sched [] acc stops).sched = sched := by
  intro stops
  induction stops with
  | nil => intro sched acc; exact ⟨rfl, rfl, rfl⟩
  | cons a stops ih =>
    intro sched acc
    obtain ⟨h1, h2, h3⟩ := ih sched (JoinErrors [acc, catchPanic a.Stop])
    rw [stopModules]
    simp only [List.length_nil, enterRun, List.map_nil, List.nil_append, List.map_cons]
    exact ⟨by rw [h1], h2, h3⟩

theorem initModules_ok : ∀ (ms : List Module), (∀ m ∈ ms, m.Init = .returns none) →
    initModules ms = (ms, none, ms.map (fun m => ⟨.Init, m, some m.Init⟩))
  | [], _ => rfl
  | m :: ms, h => by
    have hm : catchPanic m.Init = none :=
      (catchPanic_eq_none _).mpr (h m (List.mem_cons_self _ _))
    have ih := initModules_ok ms (fun x hx => h x (List.mem_cons_of_mem _ hx))
    simp [initModules, hm, ih]

theorem initModules_fail : ∀ (pre : List Module) (m : Module) (post : List Module),
    (∀ x ∈ pre, x.Init = .returns none) → m.Init ≠ .returns none →
    ∃ err, catchPanic m.Init = some err ∧
      initModules (pre ++ m :: post) =
        (pre, some (.wrap ("failed to initialize module " ++ m.ID ++ ": " ++ err.Error) err),
          (pre ++ [m]).map (fun m => ⟨.Init, m, some m.Init⟩))
  | [], m, post, _, hm => by
    cases hc : catchPanic m.Init with
    | none => exact absurd ((catchPanic_eq_none _).mp hc) hm
    | some err => exact ⟨err, rfl, by simp [initModules, hc]⟩
  | a :: pre, m, post, h, hm => by
    have ha : catchPanic a.Init = none :=
      (catchPanic_eq_none _).mpr (h a (List.mem_cons_self _ _))
    obtain ⟨err, he, ih⟩ :=
      initModules_fail pre m post (fun x hx => h x (List.mem_cons_of_mem _ hx)) hm
    exact ⟨err, he, by simp [initModules, ha, ih]⟩

/-- Every module list either initializes completely or splits at the first failing
`Init`. -/
theorem init_cases : ∀ (ms : List Module),
    (∀ m ∈ ms, m.Init = .returns none) ∨
    ∃ pre m post, ms = pre ++ m :: post ∧ (∀ x ∈ pre, x.Init = .returns none) ∧
      m.Init ≠ .returns none
  | [] => Or.inl (by simp)
  | a :: ms => by
    by_cases ha : a.Init = .returns none
    · rcases init_cases ms with h | ⟨pre, m, post, rfl, hpre, hm⟩
      · left
        intro x hx
        rcases List.mem_cons.mp hx with rfl | hx
        · exact ha
        · exact h x hx
      · right
        refine ⟨a :: pre, m, post, rfl, ?_, hm⟩
        intro x hx
        rcases List.mem_cons.mp hx with rfl | hx
        · exact ha
        · exact hpre x hx
    · exact Or.inr ⟨[], a, ms, rfl, by simp, ha⟩


theorem runTask_contains {m : Module} {t : Err}
    (h : errorsIs (catchPanic m.Run.outcome) (some t) = true) :
    errorsIs (runTask m) (some t) = true := by
  obtain ⟨x, hx, hxt⟩ := errorsIs_elim h
  simp only [runTask, hx, errorsIs_some, Err.is_wrap]
  exact Or.inr hxt

theorem runTask_none {m : Module} (h : m.Run.outcome = .returns none) : runTask m = none := by
  simp [runTask, h, catchPanic]

theorem Wait_contains {ms : List Module} {m : Module} {t : Err} (sched : List Nat)
    (hm : m ∈ ms) (h : errorsIs (catchPanic m.Run.outcome) (some t) = true) :
    errorsIs (ErrGroup.Wait { wg := ms.map runTask, err := none } sched) (some t) = true := by
  obtain ⟨x, hx, hxt⟩ := errorsIs_elim (runTask_contains h)
  apply ErrGroup.drain_contains _ _ _ _ rfl
  right
  refine ⟨x, ?_, hxt⟩
  rw [← hx]
  exact List.mem_map_of_mem _ hm

theorem execute_spec (sched : List Nat) (wg : ErrGroup) (ms : List Module) :
    (execute sched wg ms).wg = { wg := wg.wg ++ ms.map runTask, err := wg.err } ∧
    (execute sched wg ms).done = ms.any (fun m => m.Run.onItsOwn) ∧
    ∃ entered, (execute sched wg ms).calls = entered.map (runCall (execute sched wg ms).done) ∧
      (entered ++ (execute sched wg ms).pending).Perm ms ∧
      ((execute sched wg ms).done = false → (execute sched wg ms).pending = []) := by
  simp only [execute, foldl_started, List.nil_append, true_and]
  refine ⟨?_, _, rfl, enterRun_perm _ _ _ _, ?_⟩
  · rcases enterRun_done ms.length sched ms (Nat.le_refl _) with ⟨h1, m, hm, hmo⟩ | ⟨h1, -, h3⟩
    · rw [h1]
      simp only [decide_True]
      exact (List.any_eq_true.mpr ⟨m, hm, hmo⟩).symm
    · rw [h1]
      simp only [reduceCtorEq, decide_False]
      symm
      rw [List.any_eq_false]
      intro m hm
      simp [h3 m hm]
  · intro hd
    rcases enterRun_done ms.length sched ms (Nat.le_refl _) with ⟨h1, -⟩ | ⟨-, h2, -⟩
    · rw [h1] at hd
      simp at hd
    · exact h2

/-- The value of `run` when every `Init` succeeds: every module has its `Run` called once,
at moments chosen by the schedule; the stop loop is reached exactly when some `Run` ends
on its own. -/
theorem run_ok (sched : List Nat) (ms : List Module) (hne : ms ≠ [])
    (h : ∀ m ∈ ms, m.Init = .returns none) :
    ∃ (runs : List Module) (s : List Nat) (stopErr : Option Err),
      runs.Perm ms ∧
      (∀ t, (∃ m ∈ ms, errorsIs (catchPanic m.Stop) (some t) = true) →
        errorsIs stopErr (some t) = true) ∧
      ((∀ m ∈ ms, m.Stop = .returns none) → stopErr = none) ∧
      (run sched ms).calls.filter (fun c => decide (c.phase = .Init))
        = ms.map (fun m => ⟨.Init, m, some m.Init⟩) ∧
      (run sched ms).calls.filter (fun c => decide (c.phase = .Run))
        = runs.map (runCall (ms.any (fun m => m.Run.onItsOwn))) ∧
      (run sched ms).calls.filter (fun c => decide (c.phase = .Stop))
        = (if ms.any (fun m => m.Run.onItsOwn) then
            ms.reverse.map (fun m => ⟨.Stop, m, some m.Stop⟩) else []) ∧
      (run sched ms).returned =
        if ms.any (fun m => m.Run.onItsOwn) then
          some (JoinErrors [none, ErrGroup.Wait { wg := ms.map runTask, err := none } s, stopErr])
        else none := by
  have hlen : ¬ ms.length = 0 := by
    intro h0
    exact hne (List.length_eq_zero.mp h0)
  unfold run
  rw [if_neg hlen, initModules_ok ms h]
  simp only [Option.isNone_none, if_true]
  obtain ⟨hwg, hdone, entered, hcalls, hperm, hpend⟩ := execute_spec sched {} ms
  rw [← hdone]
  generalize execute sched {} ms = ex at *
  cases hd : ex.done with
  | false =>
    rw [hd] at hcalls
    have hp := hpend hd
    rw [hp, List.append_nil] at hperm
    obtain ⟨-, -, -, h4, h5⟩ := stop_spec ms.reverse [] [] none
    refine ⟨entered, [], (stopModules [] [] none ms.reverse).stopErr, hperm, ?_, ?_,
      ?_, ?_, ?_, ?_⟩
    · intro t ⟨m, hm, hmt⟩
      exact h4 t (Or.inr ⟨m, List.mem_reverse.mpr hm, hmt⟩)
    · intro hall
      exact h5 rfl (fun m hm => hall m (List.mem_reverse.mp hm))
    · simp only [Bool.false_eq_true, if_false, hcalls, List.filter_append, runCall_eq,
        phase_filter_keep, phase_filter_diff Phase.Init Phase.Run (by decide), List.append_nil]
    · simp only [Bool.false_eq_true, if_false, hcalls, List.filter_append, runCall_eq,
        phase_filter_keep, phase_filter_diff Phase.Run Phase.Init (by decide), List.nil_append]
    · simp only [Bool.false_eq_true, if_false, hcalls, List.filter_append, runCall_eq,
        phase_filter_diff Phase.Stop Phase.Run (by decide),
        phase_filter_diff Phase.Stop Phase.Init (by decide), List.append_nil]
    · simp only [Bool.false_eq_true, if_false]
  | true =>
    rw [hd] at hcalls
    obtain ⟨h1, h2, ⟨sruns, h3, h3p⟩, h4, h5⟩ := stop_spec ms.reverse ex.sched ex.pending none
    have hw := enterRun_perm (stopModules ex.sched ex.pending none ms.reverse).pending.length
      .awaitsAll (stopModules ex.sched ex.pending none ms.reverse).sched
      (stopModules ex.sched ex.pending none ms.reverse).pending
    rw [enterRun_all _ _ _ (Nat.le_refl _), List.append_nil] at hw
    refine ⟨entered ++ sruns ++ (enterRun
        (stopModules ex.sched ex.pending none ms.reverse).pending.length .awaitsAll
        (stopModules ex.sched ex.pending none ms.reverse).sched
        (stopModules ex.sched ex.pending none ms.reverse).pending).entered,
      (enterRun
        (stopModules ex.sched ex.pending none ms.reverse).pending.length .awaitsAll
        (stopModules ex.sched ex.pending none ms.reverse).sched
        (stopModules ex.sched ex.pending none ms.reverse).pending).sched,
      (stopModules ex.sched ex.pending none ms.reverse).stopErr, ?_, ?_, ?_, ?_, ?_, ?_, ?_⟩
    · rw [List.append_assoc]
      exact ((List.Perm.append_left _ ((List.Perm.append_left _ hw).trans h3p))).trans hperm
    · intro t ⟨m, hm, hmt⟩
      exact h4 t (Or.inr ⟨m, List.mem_reverse.mpr hm, hmt⟩)
    · intro hall
      exact h5 rfl (fun m hm => hall m (List.mem_reverse.mp hm))
    · simp only [if_true, hcalls, List.filter_append, h2, runCall_eq,
        phase_filter_keep, phase_filter_diff Phase.Init Phase.Run (by decide), List.append_nil]
    · simp only [if_true, hcalls, List.filter_append, h3, List.map_append, runCall_eq,
        phase_filter_keep, phase_filter_diff Phase.Run Phase.Init (by decide), List.nil_append]
    · simp only [if_true, hcalls, List.filter_append, h1, runCall_eq,
        phase_filter_diff Phase.Stop Phase.Run (by decide),
        phase_filter_diff Phase.Stop Phase.Init (by decide), List.append_nil, List.nil_append]
    · simp only [if_true, hwg]
      rfl

/-- The value of `run` when the first failing `Init` is that of `m`. -/
theorem run_fail (sched : List Nat) (pre : List Module) (m : Module) (post : List Module)
    (h : ∀ x ∈ pre, x.Init = .returns none) (hm : m.Init ≠ .returns none) :
    ∃ err, catchPanic m.Init = some err ∧
      run sched (pre ++ m :: post) =
        { calls := (pre ++ [m]).map (fun m => ⟨.Init, m, some m.Init⟩) ++
            pre.reverse.map (fun m => ⟨.Stop, m, some m.Stop⟩),
          returned := some (JoinErrors
            [some (.wrap ("failed to initialize module " ++ m.ID ++ ": " ++ err.Error) err),
              none, (stopModules sched [] none pre.reverse).stopErr]) } := by
  obtain ⟨err, he, hi⟩ := initModules_fail pre m post h hm
  refine ⟨err, he, ?_⟩
  have hlen : ¬ (pre ++ m :: post).length = 0 := by simp
  obtain ⟨h1, h2, h3⟩ := stop_nil pre.reverse sched none
  unfold run
  rw [if_neg hlen, hi]
  simp only [Option.isNone_some, Bool.false_eq_true, if_false, if_true, h1, h2, h3,
    List.length_nil, enterRun, List.map_nil, List.append_nil]
  rfl

theorem mem_filter_phase {c : Call} {l : List Call} {ph : Phase} (hc : c ∈ l)
    (h : c.phase = ph) : c ∈ l.filter (fun c => decide (c.phase = ph)) :=
  List.mem_filter.mpr ⟨hc, by simp [h]⟩

/-- A failure of any call made by `run` ends up in the error that `run` returns, and
`run` does return. -/
theorem run_call_error (sched : List Nat) (ms : List Module) (c : Call) (o : Outcome)
    (t : Err) (hc : c ∈ (run sched ms).calls) (ho : c.result = some o)
    (ht : errorsIs (catchPanic o) (some t) = true) :
    ∃ r, (run sched ms).returned = some (some r) ∧ Err.is t r = true := by
  have initOk : ∀ l : List Module, (∀ x ∈ l, x.Init = .returns none) →
      c ∈ l.map (fun m => (⟨.Init, m, some m.Init⟩ : Call)) → False := by
    intro l hl hmem
    obtain ⟨m, hm, rfl⟩ := List.mem_map.mp hmem
    simp only [Option.some.injEq] at ho
    rw [← ho, hl m hm] at ht
    simp [catchPanic, errorsIs] at ht
  have wrapUp : ∀ X : Option Err, errorsIs X (some t) = true →
      ∃ r, some X = some (some r) ∧ Err.is t r = true := by
    intro X hX
    obtain ⟨x, rfl, hx⟩ := errorsIs_elim hX
    exact ⟨x, rfl, hx⟩
  rcases init_cases ms with h | ⟨pre, m, post, rfl, hpre, hm⟩
  · by_cases hne : ms = []
    · subst hne
      simp [run] at hc
    · obtain ⟨runs, s, stopErr, hperm, hstop, -, hI, hR, hS, hret⟩ := run_ok sched ms hne h
      have hany : ms.any (fun m => m.Run.onItsOwn) = true ∧
          (errorsIs (ErrGroup.Wait { wg := ms.map runTask, err := none } s) (some t) = true ∨
            errorsIs stopErr (some t) = true) := by
        cases hph : c.phase with
        | Init =>
          have := mem_filter_phase hc hph
          rw [hI] at this
          exact (initOk ms h this).elim
        | Run =>
          have hmem := mem_filter_phase hc hph
          rw [hR] at hmem
          obtain ⟨x, hx, rfl⟩ := List.mem_map.mp hmem
          have hxms : x ∈ ms := hperm.subset hx
          cases hb : ms.any (fun m => m.Run.onItsOwn) with
          | false =>
            have hxo : x.Run.onItsOwn = false := by
              have := List.any_eq_false.mp hb x hxms
              simpa using this
            simp [runCall, hb, hxo] at ho
          | true =>
            simp only [runCall, hb, Bool.or_true, if_true, Option.some.injEq] at ho
            rw [← ho] at ht
            exact ⟨rfl, Or.inl (Wait_contains s hxms ht)⟩
        | Stop =>
          have hmem := mem_filter_phase hc hph
          rw [hS] at hmem
          cases hb : ms.any (fun m => m.Run.onItsOwn) with
          | false => simp [hb] at hmem
          | true =>
            simp only [hb, if_true] at hmem
            obtain ⟨x, hx, rfl⟩ := List.mem_map.mp hmem
            simp only [Option.some.injEq] at ho
            rw [← ho] at ht
            exact ⟨rfl, Or.inr (hstop t ⟨x, List.mem_reverse.mp hx, ht⟩)⟩
      rw [hret, if_pos hany.1]
      apply wrapUp
      rcases hany.2 with hw | hs
      · exact errorsIs_join_of_mem
          (x := ErrGroup.Wait { wg := ms.map runTask, err := none } s) (by simp) hw
      · exact errorsIs_join_of_mem (x := stopErr) (by simp) hs
  · obtain ⟨err, he, hr⟩ := run_fail sched pre m post hpre hm
    rw [hr] at hc ⊢
    apply wrapUp
    simp only [List.mem_append, List.map_append, List.map_cons, List.map_nil,
      List.mem_singleton] at hc
    rcases hc with (hc | rfl) | hc
    · exact (initOk pre hpre hc).elim
    · simp only [Option.some.injEq] at ho
      rw [← ho, he] at ht
      refine errorsIs_join_of_mem (List.mem_cons_self _ _) ?_
      rw [errorsIs_some, Err.is_wrap]
      exact Or.inr ht
    · obtain ⟨x, hx, rfl⟩ := List.mem_map.mp hc
      simp only [Option.some.injEq] at ho
      rw [← ho] at ht
      refine errorsIs_join_of_mem (x := (stopModules sched [] none pre.reverse).stopErr)
        (by simp) ?_
      exact (stop_spec pre.reverse sched [] none).2.2.2.1 t (Or.inr ⟨x, hx, ht⟩)

theorem split_at_get? {α : Type} : ∀ (l : List α) (k : Nat) (m : α), l.get? k = some m →
    l = l.take k ++ m :: l.drop (k + 1) ∧ l.take (k + 1) = l.take k ++ [m]
  | [], _, _, h => by simp at h
  | a :: l, 0, m, h => by
    simp at h
    subst h
    simp
  | a :: l, k + 1, m, h => by
    have ih := split_at_get? l k m (by simpa using h)
    constructor
    · simpa using ih.1
    · simpa using ih.2

theorem get?_of_mem_take {α : Type} {x : α} : ∀ (l : List α) (k : Nat), x ∈ l.take k →
    ∃ j, j < k ∧ l.get? j = some x
  | [], _, h => by simp at h
  | _ :: _, 0, h => by simp at h
  | a :: l, k + 1, h => by
    rw [List.take_succ_cons] at h
    rcases List.mem_cons.mp h with rfl | h
    · exact ⟨0, by omega, by simp⟩
    · obtain ⟨j, hj, hx⟩ := get?_of_mem_take l k h
      exact ⟨j + 1, by omega, by simpa using hx⟩

end Srvc

/-! ## The claims -/

namespace Srvc

/-- C5: with the default `JoinErrors`, every `Init`, `Run` or `Stop` call made during
one `Run` invocation that returns a non-nil error `E` makes `Run` return an error that
contains `E` in the sense of `errors.Is`; no phase error is dropped. -/
theorem C5_no_error_dropped (sched : List Nat) (ms : List Module) (c : Call) (E : Err)
    (hc : c ∈ (Run sched ms).calls) (hE : c.result = some (.returns (some E))) :
    ∃ r, (Run sched ms).returned = some (some r) ∧ errorsIs (some r) (some E) = true :=
  run_call_error sched ms c (.returns (some E)) E hc hE (Err.is_refl E)

/-- C6: `catchPanic` turns a panic with payload `p` into a non-nil error that wraps
`ErrModulePanic` and whose message is "module recovered from panic: " followed by `p`
printed with `%s`; a normal return of `fn` is passed through unchanged; hence a panic in
any `Init`, `Run` or `Stop` call makes `Run` return an error containing `ErrModulePanic`. -/
theorem C6_catchPanic :
    (∀ p : Payload, ∃ err, catchPanic (.panics p) = some err ∧
      errorsIs (some err) (some ErrModulePanic) = true ∧
      err.Error = "module recovered from panic: " ++ p.fmtS) ∧
    (∀ r : Option Err, catchPanic (.returns r) = r) ∧
    (∀ (sched : List Nat) (ms : List Module) (c : Call) (p : Payload),
      c ∈ (Run sched ms).calls → c.result = some (.panics p) →
      ∃ r, (Run sched ms).returned = some (some r) ∧
        errorsIs (some r) (some ErrModulePanic) = true) := by
  refine ⟨?_, fun r => rfl, ?_⟩
  · intro p
    refine ⟨_, rfl, ?_, rfl⟩
    rw [errorsIs_some, Err.is_wrap]
    exact Or.inr (Err.is_refl _)
  · intro sched ms c p hc hp
    refine run_call_error sched ms c (.panics p) ErrModulePanic hc hp ?_
    show errorsIs (some _) (some ErrModulePanic) = true
    rw [errorsIs_some, Err.is_wrap]
    exact Or.inr (Err.is_refl _)

/-- C7: when every `Init`, `Run` and `Stop` call that is made returns nil without
panicking, `Run` returns nil; on the empty list it returns nil without any call. -/
theorem C7_all_succeed :
    (∀ sched : List Nat, Run sched [] = { calls := [], returned := some none }) ∧
    (∀ (sched : List Nat) (ms : List Module),
      (∀ c ∈ (Run sched ms).calls, c.result = some (.returns none)) →
      (Run sched ms).returned = some none) := by
  refine ⟨fun _ => rfl, ?_⟩
  intro sched ms h
  unfold Run at h ⊢
  rcases init_cases ms with hi | ⟨pre, m, post, rfl, hpre, hm⟩
  · by_cases hne : ms = []
    · subst hne; rfl
    · obtain ⟨runs, s, stopErr, hperm, -, hstop, -, hR, hS, hret⟩ := run_ok sched ms hne hi
      have hrunmem : ∀ x ∈ ms,
          runCall (ms.any (fun m => m.Run.onItsOwn)) x ∈ (run sched ms).calls := by
        intro x hx
        have : runCall (ms.any (fun m => m.Run.onItsOwn)) x ∈
            (run sched ms).calls.filter (fun c => decide (c.phase = .Run)) := by
          rw [hR]
          exact List.mem_map_of_mem _ (hperm.symm.subset hx)
        exact List.mem_of_mem_filter this
      have hany : ms.any (fun m => m.Run.onItsOwn) = true := by
        cases hb : ms.any (fun m => m.Run.onItsOwn) with
        | true => rfl
        | false =>
          obtain ⟨x, hx⟩ := List.exists_mem_of_ne_nil ms hne
          have hxo : x.Run.onItsOwn = false := by
            have := List.any_eq_false.mp hb x hx
            simpa using this
          have := h _ (hrunmem x hx)
          simp [runCall, hb, hxo] at this
      have hrun : ∀ x ∈ ms, x.Run.outcome = .returns none := by
        intro x hx
        have := h _ (hrunmem x hx)
        simpa [runCall, hany] using this
      have hstopok : ∀ x ∈ ms, x.Stop = .returns none := by
        intro x hx
        have hmem : (⟨.Stop, x, some x.Stop⟩ : Call) ∈
            (run sched ms).calls.filter (fun c => decide (c.phase = .Stop)) := by
          rw [hS, if_pos hany]
          exact List.mem_map.mpr ⟨x, List.mem_reverse.mpr hx, rfl⟩
        have := h _ (List.mem_of_mem_filter hmem)
        simpa using this
      have hw : ErrGroup.Wait { wg := ms.map runTask, err := none } s = none := by
        apply ErrGroup.drain_none _ _ _ rfl
        intro x hx
        obtain ⟨y, hy, rfl⟩ := List.mem_map.mp hx
        exact runTask_none (hrun y hy)
      rw [hret, if_pos hany, hw, hstop hstopok]
      rfl
  · obtain ⟨err, -, hr⟩ := run_fail sched pre m post hpre hm
    rw [hr] at h
    have := h ⟨.Init, m, some m.Init⟩ (by simp)
    simp only [Option.some.injEq] at this
    exact absurd this hm

/-- C9: `RunAndExit` calls the exit function exactly once, with code 1, when `Run`
returns a non-nil error, and does not call it when `Run` returns nil. -/
theorem C9_RunAndExit (sched : List Nat) (ms : List Module) :
    (∀ e, (Run sched ms).returned = some (some e) →
      RunAndExit (fun code log => log ++ [code]) sched ms [] = [1] ∧
      ∀ (σ : Type) (exitFn : Int → σ → σ) (s : σ),
        RunAndExit exitFn sched ms s = exitFn 1 s) ∧
    ((Run sched ms).returned = some none →
      RunAndExit (fun code log => log ++ [code]) sched ms [] = [] ∧
      ∀ (σ : Type) (exitFn : Int → σ → σ) (s : σ), RunAndExit exitFn sched ms s = s) := by
  constructor
  · intro e h
    simp [RunAndExit, h]
  · intro h
    simp [RunAndExit, h]

/-- C1 (as stated, refuted): for the one-module list whose module initializes and whose
`Run` blocks until `Stop`, `Run` blocks forever and no `Stop` call is made, although the
initialized list holds the module. -/
theorem C1_counterexample :
    [blockingMod] ≠ [] ∧ (initModules [blockingMod]).1 = [blockingMod] ∧
    (Run [] [blockingMod]).returned = none ∧
    (Run [] [blockingMod]).callsOf .Stop = [] ∧
    (Run [] [blockingMod]).callsOf .Stop ≠ (initModules [blockingMod]).1.reverse := by
  decide

/-- C1 (amended): whenever the stop loop is reached, that is when some `Init` failed or
the `Run` call of some module has returned, the `Stop` calls made are exactly the reverse
of the initialized list, one completed call per module, whatever the `Stop` and `Run`
calls return or panic with; otherwise no `Stop` call is made. -/
theorem C1_stop_order (sched : List Nat) (ms : List Module) :
    (((initModules ms).2.1 ≠ none ∨
        ∃ c ∈ (Run sched ms).calls, c.phase = .Run ∧ c.result ≠ none) →
      (Run sched ms).callsOf .Stop = (initModules ms).1.reverse ∧
      ∀ c ∈ (Run sched ms).calls, c.phase = .Stop → c.result = some c.mod.Stop) ∧
    (¬ ((initModules ms).2.1 ≠ none ∨
        ∃ c ∈ (Run sched ms).calls, c.phase = .Run ∧ c.result ≠ none) →
      (Run sched ms).callsOf .Stop = []) := by
  unfold Run
  rcases init_cases ms with hi | ⟨pre, m, post, rfl, hpre, hm⟩
  · by_cases hne : ms = []
    · subst hne
      simp [run, Exec.callsOf, initModules]
    · obtain ⟨runs, s, stopErr, hperm, -, -, -, hR, hS, -⟩ := run_ok sched ms hne hi
      rw [initModules_ok ms hi]
      cases hb : ms.any (fun m => m.Run.onItsOwn) with
      | true =>
        rw [hb] at hS
        simp only [if_true] at hS
        have hstops : (run sched ms).callsOf .Stop = ms.reverse := by
          rw [Exec.callsOf, hS]
          exact map_mod _ _ _
        refine ⟨fun _ => ⟨hstops, ?_⟩, fun hn => ?_⟩
        · intro c hc hph
          have hmem := mem_filter_phase hc hph
          rw [hS] at hmem
          obtain ⟨x, -, rfl⟩ := List.mem_map.mp hmem
          rfl
        · exfalso
          apply hn
          right
          obtain ⟨x, hx, -⟩ := List.any_eq_true.mp hb
          refine ⟨runCall true x, ?_, rfl, by simp [runCall]⟩
          have : runCall true x ∈
              (run sched ms).calls.filter (fun c => decide (c.phase = .Run)) := by
            rw [hR, hb]
            exact List.mem_map_of_mem _ (hperm.symm.subset hx)
          exact List.mem_of_mem_filter this
      | false =>
        rw [hb] at hS hR
        simp only [Bool.false_eq_true, if_false] at hS
        have hstops : (run sched ms).callsOf .Stop = [] := by
          rw [Exec.callsOf, hS]
          rfl
        refine ⟨fun h => ?_, fun _ => hstops⟩
        exfalso
        rcases h with h | ⟨c, hc, hph, hres⟩
        · exact h rfl
        · have hmem := mem_filter_phase hc hph
          rw [hR] at hmem
          obtain ⟨x, hx, rfl⟩ := List.mem_map.mp hmem
          have hxo : x.Run.onItsOwn = false := by
            have := List.any_eq_false.mp hb x (hperm.subset hx)
            simpa using this
          simp [runCall, hxo] at hres
  · obtain ⟨err, -, hr⟩ := run_fail sched pre m post hpre hm
    obtain ⟨err2, -, hini⟩ := initModules_fail pre m post hpre hm
    rw [hr, hini]
    refine ⟨fun _ => ⟨?_, ?_⟩, fun hn => absurd (Or.inl (by simp)) hn⟩
    · simp only [Exec.callsOf, List.filter_append, List.map_append, phase_filter_same,
        phase_filter_diff Phase.Stop Phase.Init (by decide), List.map_nil, List.nil_append]
    · intro c hc hph
      simp only [List.mem_append, List.mem_map] at hc
      rcases hc with ⟨x, -, rfl⟩ | ⟨x, -, rfl⟩
      · simp at hph
      · rfl

/-- C2: when the first module whose `Init` fails is at index `k`, `Init` is called on
the modules `0..k` in order and on no other, no `Run` call is made, `Stop` is called only
on modules `0..k-1`, no call at all is made on a module outside `0..k`, and the function
initialize returns the modules `0..k-1` together with a non-nil error. -/
theorem C2_init_failure (sched : List Nat) (ms : List Module) (k : Nat) (m : Module)
    (hk : ms.get? k = some m) (hfail : m.Init ≠ .returns none)
    (hfirst : ∀ j mj, j < k → ms.get? j = some mj → mj.Init = .returns none) :
    (Run sched ms).callsOf .Init = ms.take (k + 1) ∧
    (Run sched ms).callsOf .Run = [] ∧
    (Run sched ms).callsOf .Stop = (ms.take k).reverse ∧
    (∀ c ∈ (Run sched ms).calls, c.mod ∈ ms.take (k + 1)) ∧
    (initModules ms).1 = ms.take k ∧
    (initModules ms).2.1 ≠ none ∧
    (initModules ms).2.2.map Call.mod = ms.take (k + 1) := by
  obtain ⟨hms, htake⟩ := split_at_get? ms k m hk
  have hpre : ∀ x ∈ ms.take k, x.Init = .returns none := by
    intro x hx
    obtain ⟨j, hj, hx⟩ := get?_of_mem_take ms k hx
    exact hfirst j x hj hx
  obtain ⟨err, -, hr⟩ := run_fail sched (ms.take k) m (ms.drop (k + 1)) hpre hfail
  obtain ⟨err2, -, hini⟩ := initModules_fail (ms.take k) m (ms.drop (k + 1)) hpre hfail
  rw [← hms] at hr hini
  unfold Run
  rw [hr, hini, htake]
  refine ⟨?_, ?_, ?_, ?_, rfl, by simp, ?_⟩
  · simp only [Exec.callsOf, List.filter_append, List.map_append, phase_filter_same,
      phase_filter_diff Phase.Init Phase.Stop (by decide), List.map_nil, List.append_nil]
  · simp only [Exec.callsOf, List.filter_append, List.map_append,
      phase_filter_diff Phase.Run Phase.Stop (by decide),
      phase_filter_diff Phase.Run Phase.Init (by decide), List.map_nil, List.append_nil]
  · simp only [Exec.callsOf, List.filter_append, List.map_append, phase_filter_same,
      phase_filter_diff Phase.Stop Phase.Init (by decide), List.map_nil, List.nil_append]
  · intro c hc
    simp only [List.mem_append, List.mem_map] at hc
    rcases hc with ⟨x, hx, rfl⟩ | ⟨x, hx, rfl⟩
    · simpa using hx
    · simp only [List.mem_append]
      exact Or.inl (List.mem_reverse.mp hx)
  · simp only [List.map_map]
    exact List.map_id _

/-- C3 (the code at the failing input): for the single module whose `Init` and `Stop`
both return an error, `Init` is called, `Stop` is never called on it, and `Run` returns
an error that holds the init error but not the stop error. -/
theorem C3_failed_init_not_stopped :
    (Run [] [initStopErrMod]).calls = [⟨.Init, initStopErrMod, some initStopErrMod.Init⟩] ∧
    (Run [] [initStopErrMod]).callsOf .Init = [initStopErrMod] ∧
    (Run [] [initStopErrMod]).callsOf .Stop = [] ∧
    (Run [] [initStopErrMod]).returned =
      some (some (.join [.wrap "failed to initialize module TestMod: init error"
        (.str "init error")])) ∧
    errorsIs ((Run [] [initStopErrMod]).returned.bind id) (some (.str "stop error")) = false := by
  decide

/-- C4 (as stated, refuted): in the list made of a working module followed by a module
whose `Init` fails, the first module is initialized and stopped, but its `Run` is never
called. -/
theorem C4_counterexample :
    (initModules [quickMod, initErrMod]).1 = [quickMod] ∧
    (initModules [quickMod, initErrMod]).2.1 ≠ none ∧
    (Run [] [quickMod, initErrMod]).callsOf .Stop = [quickMod] ∧
    (Run [] [quickMod, initErrMod]).callsOf .Run = [] := by
  decide

/-- C4 (amended): the run phase is entered only when every `Init` succeeded.  Then the
`Run` method of every module is called exactly once, by a goroutine of its own, at a
moment that the scheduler chooses.  When some `Init` fails no `Run` call is made at all,
and the modules initialized before the failure are stopped in reverse order. -/
theorem C4_run_phase (sched : List Nat) (ms : List Module) :
    ((initModules ms).2.1 = none → ((Run sched ms).callsOf .Run).Perm ms) ∧
    ((initModules ms).2.1 ≠ none →
      (Run sched ms).callsOf .Run = [] ∧
      (Run sched ms).callsOf .Stop = (initModules ms).1.reverse) := by
  unfold Run
  rcases init_cases ms with hi | ⟨pre, m, post, rfl, hpre, hm⟩
  · refine ⟨fun _ => ?_, fun h => absurd (by rw [initModules_ok ms hi]) h⟩
    by_cases hne : ms = []
    · subst hne
      exact List.Perm.refl _
    · obtain ⟨runs, s, stopErr, hperm, -, -, -, hR, -, -⟩ := run_ok sched ms hne hi
      rw [Exec.callsOf, hR, runCall_eq, map_mod]
      exact hperm
  · obtain ⟨err, -, hr⟩ := run_fail sched pre m post hpre hm
    obtain ⟨err2, -, hini⟩ := initModules_fail pre m post hpre hm
    rw [hr, hini]
    refine ⟨fun h => by simp at h, fun _ => ⟨?_, ?_⟩⟩
    · simp only [Exec.callsOf, List.filter_append, List.map_append,
        phase_filter_diff Phase.Run Phase.Stop (by decide),
        phase_filter_diff Phase.Run Phase.Init (by decide), List.map_nil, List.append_nil]
    · simp only [Exec.callsOf, List.filter_append, List.map_append, phase_filter_same,
        phase_filter_diff Phase.Stop Phase.Init (by decide), List.map_nil, List.nil_append]

/-- C8: for an `ErrGroup` on which the tasks are registered with `Go`, and for every
order in which they finish, `Wait` lets every goroutine finish and returns an error that
contains each error returned by a task, and contains nothing but what these errors
contain (join nodes made by the group apart): it is the successive `JoinErrors` of the
errors of the failing tasks, in their order of completion.  It returns nil when no task
fails, also when there is no task.  Every order of completion is realised by a schedule. -/
theorem C8_errgroup_wait (tasks : List (Option Err)) (sched : List Nat) :
    (ErrGroup.drain tasks.length sched (tasks.foldl ErrGroup.Go {})).wg = [] ∧
    (∀ e, some e ∈ tasks →
      errorsIs ((tasks.foldl ErrGroup.Go {}).Wait sched) (some e) = true) ∧
    (∀ t, (∀ es, t ≠ .join es) →
      errorsIs ((tasks.foldl ErrGroup.Go {}).Wait sched) (some t) = true →
      ∃ e, some e ∈ tasks ∧ errorsIs (some e) (some t) = true) ∧
    ((∀ x ∈ tasks, x = none) → (tasks.foldl ErrGroup.Go {}).Wait sched = none) ∧
    (ErrGroup.Wait {} sched = none) ∧
    (∃ order : List (Option Err), order.Perm tasks ∧
      (tasks.foldl ErrGroup.Go {}).Wait sched = order.foldl ErrGroup.merge none) ∧
    (∀ order : List (Option Err), order.Perm tasks →
      ∃ s, (tasks.foldl ErrGroup.Go {}).Wait s = order.foldl ErrGroup.merge none) := by
  have hgo : tasks.foldl ErrGroup.Go {} = { wg := tasks, err := none } := by
    have := foldl_Go (fun x : Option Err => x) tasks {}
    simpa using this
  rw [hgo]
  refine ⟨?_, ?_, ?_, ?_, rfl, ?_, ?_⟩
  · exact ErrGroup.drain_wg _ _ _ rfl
  · intro e he
    exact ErrGroup.drain_contains _ _ _ _ rfl (Or.inr ⟨e, he, Err.is_refl e⟩)
  · intro t ht h
    rcases ErrGroup.drain_inv _ _ _ t ht h with h2 | ⟨e, he, het⟩
    · simp [errorsIs] at h2
    · exact ⟨e, he, het⟩
  · intro h
    exact ErrGroup.drain_none _ _ _ rfl h
  · exact ⟨ErrGroup.order tasks.length sched tasks, ErrGroup.order_perm _ _ _ rfl,
      ErrGroup.drain_eq_order _ _ _ rfl⟩
  · intro order hperm
    obtain ⟨s, hs⟩ := ErrGroup.order_surj order tasks hperm
    refine ⟨s, ?_⟩
    unfold ErrGroup.Wait
    rw [ErrGroup.drain_eq_order _ _ _ rfl]
    show List.foldl ErrGroup.merge none (ErrGroup.order tasks.length s tasks) = _
    rw [hs]

/-- C10 (the code at the failing input): the error of a failing `Stop` is merged as it
is, without the id of the module ("db"), whereas the error of a failing `Init` of the
same module is wrapped in a message that names it. -/
theorem C10_stop_error_untagged :
    (Run [] [stopErrMod]).returned = some (some (.join [.join [.str "stop error"]])) ∧
    ((Run [] [stopErrMod]).returned.bind id).map Err.Error = some "stop error" ∧
    ((Run [] [initErrMod]).returned.bind id).map Err.Error =
      some "failed to initialize module db: init error" := by
  decide

/-! ## Witnesses -/

/-- Witness for C1 (amended) on a list with one module whose `Run` returns on its own. -/
theorem C1_stop_order_witness :
    ((initModules [quickMod, blockingMod]).2.1 ≠ none ∨
      ∃ c ∈ (Run [] [quickMod, blockingMod]).calls, c.phase = .Run ∧ c.result ≠ none) ∧
    (Run [] [quickMod, blockingMod]).callsOf .Stop =
      (initModules [quickMod, blockingMod]).1.reverse ∧
    (Run [] [quickMod, blockingMod]).callsOf .Stop = [blockingMod, quickMod] :=
  ⟨by decide, ((C1_stop_order [] [quickMod, blockingMod]).1 (by decide)).1, by decide⟩

/-- Witness for C2 on a list of three modules whose second `Init` fails. -/
theorem C2_init_failure_witness :
    (Run [] [quickMod, initErrMod, blockingMod]).callsOf .Init = [quickMod, initErrMod] ∧
    (Run [] [quickMod, initErrMod, blockingMod]).callsOf .Stop = [quickMod] :=
  have h := C2_init_failure [] [quickMod, initErrMod, blockingMod] 1 initErrMod rfl
    (by decide) (by
      intro j mj hj hget
      have hj0 : j = 0 := by omega
      subst hj0
      simp at hget
      subst hget
      rfl)
  ⟨h.1, h.2.2.1⟩

/-- Witness for C4 (amended): one list that initializes, run under a schedule that lets
the second module call `Run` only after both `Stop` calls, and one list whose `Init`
fails. -/
theorem C4_run_phase_witness :
    (initModules [quickMod, blockingMod]).2.1 = none ∧
    ((Run [0, 1, 1, 1] [quickMod, blockingMod]).callsOf .Run).Perm [quickMod, blockingMod] ∧
    (Run [0, 1, 1, 1] [quickMod, blockingMod]).calls.map (fun c => (c.phase, c.mod.ID)) =
      [(.Init, "quick"), (.Init, "worker"), (.Run, "quick"), (.Stop, "worker"),
        (.Stop, "quick"), (.Run, "worker")] ∧
    (initModules [quickMod, initErrMod]).2.1 ≠ none ∧
    (Run [] [quickMod, initErrMod]).callsOf .Run = [] :=
  ⟨by decide, (C4_run_phase [0, 1, 1, 1] [quickMod, blockingMod]).1 (by decide), by decide,
    by decide, ((C4_run_phase [] [quickMod, initErrMod]).2 (by decide)).1⟩

/-- Witness for C5 on the list of the test `InitError_and_StopError_Different_Modules`. -/
theorem C5_no_error_dropped_witness :
    (⟨.Stop, stopErrMod, some stopErrMod.Stop⟩ : Call) ∈ (Run [] [stopErrMod, initErrMod]).calls ∧
    ∃ r, (Run [] [stopErrMod, initErrMod]).returned = some (some r) ∧
      errorsIs (some r) (some (.str "stop error")) = true :=
  ⟨by decide, C5_no_error_dropped [] [stopErrMod, initErrMod]
    ⟨.Stop, stopErrMod, some stopErrMod.Stop⟩ (.str "stop error") (by decide) rfl⟩

/-- Witness for C6 on a module whose `Run` panics. -/
theorem C6_catchPanic_witness :
    (⟨.Run, runPanicMod, some (.panics (.str "boom"))⟩ : Call) ∈
      (Run [] [runPanicMod]).calls ∧
    ∃ r, (Run [] [runPanicMod]).returned = some (some r) ∧
      errorsIs (some r) (some ErrModulePanic) = true :=
  ⟨by decide, C6_catchPanic.2.2 [] [runPanicMod]
    ⟨.Run, runPanicMod, some (.panics (.str "boom"))⟩ (.str "boom") (by decide) rfl⟩

/-- Witness for C7 on two working modules. -/
theorem C7_all_succeed_witness :
    (∀ c ∈ (Run [] [quickMod, blockingMod]).calls, c.result = some (.returns none)) ∧
    (Run [] [quickMod, blockingMod]).returned = some none :=
  ⟨by decide, C7_all_succeed.2 [] [quickMod, blockingMod] (by decide)⟩

/-- Witness for C8 on the tasks of the test `TestErrGroup_Mixed`. -/
theorem C8_errgroup_wait_witness :
    errorsIs (([none, some (.str "err1"), none, some (.str "err2"), none].foldl
      ErrGroup.Go {}).Wait [3, 0, 1]) (some (.str "err2")) = true :=
  (C8_errgroup_wait [none, some (.str "err1"), none, some (.str "err2"), none] [3, 0, 1]).2.1
    (.str "err2") (by decide)

/-- Witness for C9 on a failing and on a working module. -/
theorem C9_RunAndExit_witness :
    (Run [] [initErrMod]).returned =
      some (some (.join [.wrap "failed to initialize module db: init error"
        (.str "init error")])) ∧
    RunAndExit (fun code log => log ++ [code]) [] [initErrMod] [] = [1] ∧
    (Run [] [quickMod]).returned = some none ∧
    RunAndExit (fun code log => log ++ [code]) [] [quickMod] [] = [] :=
  ⟨by decide, ((C9_RunAndExit [] [initErrMod]).1
    (.join [.wrap "failed to initialize module db: init error" (.str "init error")])
    (by decide)).1, by decide,
    ((C9_RunAndExit [] [quickMod]).2 (by decide)).1⟩

end Srvc
